import Mathlib

/-!
Verification development for the zignal geometric-transform and colormap core.

The estimation/resampling core is modelled shallowly: machine floating-point
arithmetic is replaced by exact rational arithmetic (`ℚ`), so "within a small
numerical tolerance" statements become exact equalities, and numeric
degeneracy thresholds become exact zero tests.
-/

namespace Zignal

open Matrix

/-- Executable determinant by Laplace expansion along the first row
(defined through `Nat.rec` so that it reduces definitionally). -/
def detL : (n : ℕ) → Matrix (Fin n) (Fin n) ℚ → ℚ :=
  Nat.rec (motive := fun n => Matrix (Fin n) (Fin n) ℚ → ℚ)
    (fun _ => 1)
    (fun k ih M =>
      ∑ j : Fin (k + 1),
        (-1 : ℚ) ^ (j : ℕ) * M 0 j * ih (M.submatrix Fin.succ j.succAbove))

theorem detL_zero (M : Matrix (Fin 0) (Fin 0) ℚ) : detL 0 M = 1 := rfl

theorem detL_succ (n : ℕ) (M : Matrix (Fin (n + 1)) (Fin (n + 1)) ℚ) :
    detL (n + 1) M =
      ∑ j : Fin (n + 1),
        (-1 : ℚ) ^ (j : ℕ) * M 0 j * detL n (M.submatrix Fin.succ j.succAbove) := rfl

theorem detL_eq_det : ∀ {n : ℕ} (M : Matrix (Fin n) (Fin n) ℚ), detL n M = M.det := by
  intro n
  induction n with
  | zero => intro M; simp [detL_zero, Matrix.det_fin_zero]
  | succ n ih =>
      intro M
      rw [detL_succ, Matrix.det_succ_row_zero]
      exact Finset.sum_congr rfl fun j _ => by rw [ih]

/-- Executable linear solve by Cramer's rule; meaningful when `detL k N ≠ 0`. -/
def solveLin {k : ℕ} (N : Matrix (Fin k) (Fin k) ℚ) (r : Fin k → ℚ) : Fin k → ℚ :=
  fun i => detL k (N.updateColumn i r) / detL k N

theorem solveLin_eq_smul_cramer {k : ℕ} (N : Matrix (Fin k) (Fin k) ℚ) (r : Fin k → ℚ) :
    solveLin N r = (detL k N)⁻¹ • Matrix.cramer N r := by
  funext i
  simp [solveLin, detL_eq_det, Matrix.cramer_apply, div_eq_inv_mul]

theorem solveLin_correct {k : ℕ} (N : Matrix (Fin k) (Fin k) ℚ) (r : Fin k → ℚ)
    (h : detL k N ≠ 0) : N *ᵥ solveLin N r = r := by
  rw [solveLin_eq_smul_cramer, Matrix.mulVec_smul, Matrix.mulVec_cramer]
  rw [detL_eq_det] at h
  funext i
  simp [Pi.smul_apply, smul_smul, detL_eq_det]
  rw [← mul_assoc, inv_mul_cancel₀ h, one_mul]

theorem mulVec_unique {k : ℕ} {N : Matrix (Fin k) (Fin k) ℚ} {r : Fin k → ℚ}
    {x y : Fin k → ℚ} (h : detL k N ≠ 0) (hx : N *ᵥ x = r) (hy : N *ᵥ y = r) : x = y := by
  by_contra hxy
  rw [detL_eq_det] at h
  apply h
  rw [← Matrix.exists_mulVec_eq_zero_iff]
  refine ⟨x - y, sub_ne_zero.mpr hxy, ?_⟩
  rw [Matrix.mulVec_sub, hx, hy, sub_self]

/-- Sum of squared components of a vector over a finite index type. -/
def sqNorm {m : Type*} [Fintype m] (v : m → ℚ) : ℚ := ∑ i, v i ^ 2

theorem sqNorm_nonneg {m : Type*} [Fintype m] (v : m → ℚ) : 0 ≤ sqNorm v :=
  Finset.sum_nonneg fun i _ => sq_nonneg (v i)

theorem sqNorm_add_expand {m : Type*} [Fintype m] (u v : m → ℚ) :
    sqNorm (u + v) = sqNorm u + 2 * (u ⬝ᵥ v) + sqNorm v := by
  simp only [sqNorm, Matrix.dotProduct, Pi.add_apply, Finset.mul_sum]
  rw [← Finset.sum_add_distrib, ← Finset.sum_add_distrib]
  exact Finset.sum_congr rfl fun i _ => by ring

/-- Any solution of the normal equations minimizes the residual sum of squares. -/
theorem normal_eq_minimizes {m k : Type*} [Fintype m] [Fintype k]
    (A : Matrix m k ℚ) (b : m → ℚ) (p : k → ℚ)
    (hp : (Aᵀ * A) *ᵥ p = Aᵀ *ᵥ b) (q : k → ℚ) :
    sqNorm (A *ᵥ p - b) ≤ sqNorm (A *ᵥ q - b) := by
  have hdecomp : A *ᵥ q - b = A *ᵥ (q - p) + (A *ᵥ p - b) := by
    rw [Matrix.mulVec_sub]; abel
  have horth : (A *ᵥ (q - p)) ⬝ᵥ (A *ᵥ p - b) = 0 := by
    rw [Matrix.dotProduct_comm, Matrix.dotProduct_mulVec, ← Matrix.mulVec_transpose,
      Matrix.mulVec_sub (Aᵀ)]
    have hne : Aᵀ *ᵥ (A *ᵥ p) = Aᵀ *ᵥ b := by
      rw [Matrix.mulVec_mulVec, hp]
    rw [hne, sub_self, Matrix.zero_dotProduct]
  rw [hdecomp, sqNorm_add_expand, horth]
  have := sqNorm_nonneg (A *ᵥ (q - p))
  linarith

/-- The Gram matrix `Aᵀ * A` of a matrix with trivial kernel has nonzero
Laplace determinant; used to certify well-posed concrete instances. -/
theorem gram_detL_ne_zero {m : Type*} [Fintype m] [DecidableEq m] {k : ℕ}
    (A : Matrix m (Fin k) ℚ)
    (hinj : ∀ v : Fin k → ℚ, A *ᵥ v = 0 → v = 0) : detL k (Aᵀ * A) ≠ 0 := by
  rw [detL_eq_det]
  intro hdet
  obtain ⟨v, hv, hNv⟩ := Matrix.exists_mulVec_eq_zero_iff.mpr hdet
  apply hv
  apply hinj
  have h1 : v ⬝ᵥ ((Aᵀ * A) *ᵥ v) = 0 := by rw [hNv, Matrix.dotProduct_zero]
  rw [← Matrix.mulVec_mulVec, Matrix.dotProduct_mulVec, Matrix.vecMul_transpose] at h1
  funext i
  have hz := (Finset.sum_eq_zero_iff_of_nonneg
    (fun j _ => mul_self_nonneg ((A *ᵥ v) j))).mp h1 i (Finset.mem_univ i)
  simpa [mul_self_eq_zero] using hz

/-! ### Substring checking for error messages -/

/-- `subListAt p l` holds when `p` is an initial segment of `l`. -/
def subListAt : List Char → List Char → Bool
  | [], _ => true
  | _ :: _, [] => false
  | a :: p, b :: l => a = b && subListAt p l

/-- `hasSub p l` holds when `p` occurs contiguously somewhere inside `l`. -/
def hasSub : List Char → List Char → Bool
  | p, [] => p.isEmpty
  | p, l@(_ :: t) => subListAt p l || hasSub p t

/-- The error message `hay` contains the keyword `needle` verbatim. -/
def strHas (hay needle : String) : Bool := hasSub needle.data hay.data

/-! ### Point correspondence solver

Modelled from the spec: the core is missing from the repository snapshot
(only its Python binding tests are present), so the Point Correspondence
Solver of spec §4.1 is reconstructed here over exact rationals.  The
numerical rank/degeneracy thresholds of the spec become exact zero tests. -/

/-- A 2D point with rational (modelled floating-point) coordinates. -/
abbrev Pt : Type := ℚ × ℚ

/-- Keyword required verbatim in every rank-deficiency message. -/
def rankKeyword : String := "rank deficient"

/-- Rank-deficiency message naming the similarity family. -/
def simRankMsg : String := "similarity transform is rank deficient"

/-- Rank-deficiency message naming the affine family. -/
def affRankMsg : String := "affine transform is rank deficient"

/-- Rank-deficiency message naming the projective family. -/
def projRankMsg : String := "projective transform is rank deficient"

/-- Validation message for correspondence sets below the family minimum. -/
def lenMsg : String := "not enough correspondence points for this transform family"

/-- Similarity parameters in the linear parameterization
`(a, b, tx, ty)` with matrix `[[a, -b], [b, a]]`; the spec's
(scale, rotation, translation) triple corresponds to
`scale² = a² + b²`, `rotation = atan2(b, a)`, translation `(tx, ty)`. -/
structure SimParams where
  a : ℚ
  b : ℚ
  tx : ℚ
  ty : ℚ

/-- Forward mapping of one point by a similarity transform. -/
def applySim (p : SimParams) (q : Pt) : Pt :=
  (p.a * q.1 - p.b * q.2 + p.tx, p.b * q.1 + p.a * q.2 + p.ty)

/-- Mean of the x coordinates of a point sequence. -/
def meanX {n : ℕ} (pts : Fin n → Pt) : ℚ := (∑ i, (pts i).1) / n

/-- Mean of the y coordinates of a point sequence. -/
def meanY {n : ℕ} (pts : Fin n → Pt) : ℚ := (∑ i, (pts i).2) / n

/-- Total squared deviation of the source points from their centroid
(the determinant-scale of the similarity normal system: the linear
similarity solve has normal matrix `spread · I₂` in its upper block). -/
def spread {n : ℕ} (src : Fin n → Pt) : ℚ :=
  ∑ i, (((src i).1 - meanX src) ^ 2 + ((src i).2 - meanY src) ^ 2)

/-- Modelled from the spec (§4.1 Similarity): closed-form least-squares fit
by centroid removal; degeneracy (all source points coincide, zero spread,
singular covariance) is detected against the exact threshold and reported
as rank deficient for "similarity". -/
def fitSimilarity (n : ℕ) (src dst : Fin n → Pt) : Except String SimParams :=
  if n < 2 then .error lenMsg
  else if spread src = 0 then .error simRankMsg
  else
    let mx := meanX src
    let my := meanY src
    let ex := meanX dst
    let ey := meanY dst
    let sp := spread src
    let a := (∑ i, (((src i).1 - mx) * ((dst i).1 - ex) +
      ((src i).2 - my) * ((dst i).2 - ey))) / sp
    let b := (∑ i, (((src i).1 - mx) * ((dst i).2 - ey) -
      ((src i).2 - my) * ((dst i).1 - ex))) / sp
    .ok ⟨a, b, ex - (a * mx - b * my), ey - (b * mx + a * my)⟩

/-- Affine parameters: the two rows of the 2×3 affine matrix. -/
structure AffParams where
  px : Fin 3 → ℚ
  py : Fin 3 → ℚ

/-- Forward mapping of one point by an affine transform. -/
def applyAff (p : AffParams) (q : Pt) : Pt :=
  (p.px 0 * q.1 + p.px 1 * q.2 + p.px 2,
   p.py 0 * q.1 + p.py 1 * q.2 + p.py 2)

/-- Design matrix of the affine normal-equation system (per coordinate). -/
def affA {n : ℕ} (src : Fin n → Pt) : Matrix (Fin n) (Fin 3) ℚ :=
  Matrix.of fun i k => ![(src i).1, (src i).2, 1] k

/-- Normal matrix of the affine system. -/
def affN {n : ℕ} (src : Fin n → Pt) : Matrix (Fin 3) (Fin 3) ℚ :=
  (affA src)ᵀ * affA src

/-- Modelled from the spec (§4.1 Affine): assemble the normal equations for
the six unknowns from all correspondences and solve; a singular normal
matrix (collinear source points) is detected by the determinant test and
reported as rank deficient for "affine". -/
def fitAffine (n : ℕ) (src dst : Fin n → Pt) : Except String AffParams :=
  if n < 3 then .error lenMsg
  else if detL 3 (affN src) = 0 then .error affRankMsg
  else
    .ok ⟨solveLin (affN src) ((affA src)ᵀ *ᵥ fun i => (dst i).1),
         solveLin (affN src) ((affA src)ᵀ *ᵥ fun i => (dst i).2)⟩

/-- Projective parameters: the 8 unknowns of the direct linear transform,
the homogeneous 3×3 matrix with lower-right entry fixed to 1. -/
structure ProjParams where
  h : Fin 8 → ℚ

/-- Forward mapping of one point by a projective transform: divide by the
homogeneous component; a zero divisor is a per-point computation error. -/
def applyProj (p : ProjParams) (q : Pt) : Option Pt :=
  let w := p.h 6 * q.1 + p.h 7 * q.2 + 1
  if w = 0 then none
  else some ((p.h 0 * q.1 + p.h 1 * q.2 + p.h 2) / w,
             (p.h 3 * q.1 + p.h 4 * q.2 + p.h 5) / w)

/-- Design matrix of the projective direct linear transform: two rows per
correspondence, eight unknown columns. -/
def projA {n : ℕ} (src dst : Fin n → Pt) : Matrix (Fin n ⊕ Fin n) (Fin 8) ℚ :=
  Matrix.of fun r k =>
    match r with
    | Sum.inl i =>
        ![(src i).1, (src i).2, 1, 0, 0, 0,
          -(dst i).1 * (src i).1, -(dst i).1 * (src i).2] k
    | Sum.inr i =>
        ![0, 0, 0, (src i).1, (src i).2, 1,
          -(dst i).2 * (src i).1, -(dst i).2 * (src i).2] k

/-- Right-hand side of the projective direct linear transform. -/
def projB {n : ℕ} (dst : Fin n → Pt) : Fin n ⊕ Fin n → ℚ :=
  Sum.elim (fun i => (dst i).1) (fun i => (dst i).2)

/-- Normal matrix of the projective system. -/
def projN {n : ℕ} (src dst : Fin n → Pt) : Matrix (Fin 8) (Fin 8) ℚ :=
  (projA src dst)ᵀ * projA src dst

/-- Modelled from the spec (§4.1 Projective): assemble the homogeneous
8-unknown design matrix and solve via least squares (normal equations);
degenerate/collinear configurations singularize the system, are caught by
the determinant test and reported as rank deficient for "projective". -/
def fitProjective (n : ℕ) (src dst : Fin n → Pt) : Except String ProjParams :=
  if n < 4 then .error lenMsg
  else if detL 8 (projN src dst) = 0 then .error projRankMsg
  else .ok ⟨solveLin (projN src dst) ((projA src dst)ᵀ *ᵥ projB dst)⟩

/-- All points of the sequence lie on one line `al·x + be·y + ga = 0`. -/
def CollinearPts {n : ℕ} (pts : Fin n → Pt) : Prop :=
  ∃ al be ga : ℚ, (al ≠ 0 ∨ be ≠ 0) ∧ ∀ i, al * (pts i).1 + be * (pts i).2 + ga = 0

/-- Family name fragments, for checking that messages name their family. -/
def simName : String := "similarity"

def affName : String := "affine"

def projName : String := "projective"

theorem spread_eq_zero_of_const {n : ℕ} (src : Fin n → Pt) (hn : 0 < n)
    (h : ∀ i j, src i = src j) : spread src = 0 := by
  have hne : (n : ℚ) ≠ 0 := Nat.cast_ne_zero.mpr hn.ne'
  set i0 : Fin n := ⟨0, hn⟩ with hi0
  have hmx : meanX src = (src i0).1 := by
    unfold meanX
    rw [Finset.sum_congr rfl fun i _ => congrArg Prod.fst (h i i0)]
    rw [Finset.sum_const, Finset.card_univ, Fintype.card_fin, nsmul_eq_mul]
    field_simp
  have hmy : meanY src = (src i0).2 := by
    unfold meanY
    rw [Finset.sum_congr rfl fun i _ => congrArg Prod.snd (h i i0)]
    rw [Finset.sum_const, Finset.card_univ, Fintype.card_fin, nsmul_eq_mul]
    field_simp
  unfold spread
  refine Finset.sum_eq_zero fun i _ => ?_
  rw [hmx, hmy, h i i0]
  ring

theorem affA_mulVec_line {n : ℕ} (src : Fin n → Pt) (al be ga : ℚ)
    (h : ∀ i, al * (src i).1 + be * (src i).2 + ga = 0) :
    affA src *ᵥ ![al, be, ga] = 0 := by
  funext i
  have hi := h i
  simp only [Matrix.mulVec, Matrix.dotProduct, Fin.sum_univ_three, affA, Matrix.of_apply,
    Matrix.cons_val_zero, Matrix.cons_val_one, Matrix.head_cons, Matrix.cons_val_two,
    Matrix.tail_cons, Pi.zero_apply]
  linarith

theorem affN_detL_zero_of_collinear {n : ℕ} (src : Fin n → Pt)
    (h : CollinearPts src) : detL 3 (affN src) = 0 := by
  obtain ⟨al, be, ga, hab, hline⟩ := h
  rw [detL_eq_det, ← Matrix.exists_mulVec_eq_zero_iff]
  refine ⟨![al, be, ga], ?_, ?_⟩
  · intro h0
    rcases hab with hal | hbe
    · exact hal (by simpa using congrFun h0 0)
    · exact hbe (by simpa using congrFun h0 1)
  · unfold affN
    rw [← Matrix.mulVec_mulVec, affA_mulVec_line src al be ga hline, Matrix.mulVec_zero]

theorem projA_mulVec_line {n : ℕ} (src dst : Fin n → Pt) (al be ga : ℚ)
    (h : ∀ i, al * (src i).1 + be * (src i).2 + ga = 0) :
    projA src dst *ᵥ ![al, be, ga, 0, 0, 0, 0, 0] = 0 := by
  funext r
  cases r with
  | inl i =>
      have hi := h i
      simp only [Matrix.mulVec, Matrix.dotProduct, Fin.sum_univ_succ, Finset.univ_unique,
        Fin.default_eq_zero, Finset.sum_singleton, projA, Matrix.of_apply,
        Matrix.cons_val_zero, Matrix.cons_val_succ, Pi.zero_apply]
      linarith
  | inr i =>
      simp only [Matrix.mulVec, Matrix.dotProduct, Fin.sum_univ_succ, Finset.univ_unique,
        Fin.default_eq_zero, Finset.sum_singleton, projA, Matrix.of_apply,
        Matrix.cons_val_zero, Matrix.cons_val_succ, Pi.zero_apply]
      ring

theorem projN_detL_zero_of_collinear {n : ℕ} (src dst : Fin n → Pt)
    (h : CollinearPts src) : detL 8 (projN src dst) = 0 := by
  obtain ⟨al, be, ga, hab, hline⟩ := h
  rw [detL_eq_det, ← Matrix.exists_mulVec_eq_zero_iff]
  refine ⟨![al, be, ga, 0, 0, 0, 0, 0], ?_, ?_⟩
  · intro h0
    rcases hab with hal | hbe
    · exact hal (by simpa using congrFun h0 0)
    · exact hbe (by simpa using congrFun h0 1)
  · unfold projN
    rw [← Matrix.mulVec_mulVec, projA_mulVec_line src dst al be ga hline, Matrix.mulVec_zero]

/-- C1: for every correspondence set degenerate for its family (all points
duplicated for similarity; all points collinear for affine and for
projective), construction fails with a rank-deficient error whose message
names that family and contains "rank deficient", and no parameters are
produced (the result is an error, not an `ok`). -/
theorem degenerate_fit_rank_deficient :
    (∀ (n : ℕ) (src dst : Fin n → Pt), 2 ≤ n → (∀ i j, src i = src j) →
      fitSimilarity n src dst = .error simRankMsg) ∧
    (∀ (n : ℕ) (src dst : Fin n → Pt), 3 ≤ n → CollinearPts src →
      fitAffine n src dst = .error affRankMsg) ∧
    (∀ (n : ℕ) (src dst : Fin n → Pt), 4 ≤ n → CollinearPts src →
      fitProjective n src dst = .error projRankMsg) ∧
    strHas simRankMsg rankKeyword = true ∧ strHas simRankMsg simName = true ∧
    strHas affRankMsg rankKeyword = true ∧ strHas affRankMsg affName = true ∧
    strHas projRankMsg rankKeyword = true ∧ strHas projRankMsg projName = true := by
  refine ⟨?_, ?_, ?_, by decide, by decide, by decide, by decide, by decide, by decide⟩
  · intro n src dst hn hdup
    unfold fitSimilarity
    rw [if_neg (by omega), if_pos (spread_eq_zero_of_const src (by omega) hdup)]
  · intro n src dst hn hcol
    unfold fitAffine
    rw [if_neg (by omega), if_pos (affN_detL_zero_of_collinear src hcol)]
  · intro n src dst hn hcol
    unfold fitProjective
    rw [if_neg (by omega), if_pos (projN_detL_zero_of_collinear src dst hcol)]

/-- Witness for C1 at the binding tests' concrete degenerate inputs. -/
theorem degenerate_fit_rank_deficient_w :
    fitSimilarity 2 ![(0, 0), (0, 0)] ![(1, 1), (1, 1)] = .error simRankMsg ∧
    fitAffine 3 ![(0, 0), (1, 0), (2, 0)] ![(0, 0), (1, 0), (2, 0)] = .error affRankMsg ∧
    fitProjective 4 ![(0, 0), (1, 0), (2, 0), (3, 0)]
      ![(0, 0), (1, 0), (2, 0), (3, 0)] = .error projRankMsg :=
  ⟨degenerate_fit_rank_deficient.1 2 _ _ (by norm_num)
      (fun i j => by fin_cases i <;> fin_cases j <;> rfl),
   degenerate_fit_rank_deficient.2.1 3 _ _ (by norm_num)
      ⟨0, 1, 0, Or.inr one_ne_zero, fun i => by fin_cases i <;> norm_num⟩,
   degenerate_fit_rank_deficient.2.2.1 4 _ _ (by norm_num)
      ⟨0, 1, 0, Or.inr one_ne_zero, fun i => by fin_cases i <;> norm_num⟩⟩

/-! ### Exact fit and least-squares optimality (claim C2 machinery) -/

/-- Centered x coordinate of the `i`-th point. -/
def cX {n : ℕ} (pts : Fin n → Pt) (i : Fin n) : ℚ := (pts i).1 - meanX pts

/-- Centered y coordinate of the `i`-th point. -/
def cY {n : ℕ} (pts : Fin n → Pt) (i : Fin n) : ℚ := (pts i).2 - meanY pts

/-- Cross-covariance component driving the fitted `a` parameter. -/
def simNa {n : ℕ} (src dst : Fin n → Pt) : ℚ :=
  ∑ i, (cX src i * cX dst i + cY src i * cY dst i)

/-- Cross-covariance component driving the fitted `b` parameter. -/
def simNb {n : ℕ} (src dst : Fin n → Pt) : ℚ :=
  ∑ i, (cX src i * cY dst i - cY src i * cX dst i)

/-- Total squared point-to-point error of a similarity transform. -/
def simErr {n : ℕ} (src dst : Fin n → Pt) (p : SimParams) : ℚ :=
  ∑ i, (((applySim p (src i)).1 - (dst i).1) ^ 2 +
        ((applySim p (src i)).2 - (dst i).2) ^ 2)

theorem spread_nonneg {n : ℕ} (src : Fin n → Pt) : 0 ≤ spread src :=
  Finset.sum_nonneg fun i _ => add_nonneg (sq_nonneg _) (sq_nonneg _)

theorem simErr_nonneg {n : ℕ} (src dst : Fin n → Pt) (p : SimParams) :
    0 ≤ simErr src dst p :=
  Finset.sum_nonneg fun i _ => add_nonneg (sq_nonneg _) (sq_nonneg _)

theorem sum_centered {n : ℕ} (hn : (n : ℚ) ≠ 0) (f : Fin n → ℚ) :
    ∑ i, (f i - (∑ j, f j) / n) = 0 := by
  rw [Finset.sum_sub_distrib, Finset.sum_const, Finset.card_univ, Fintype.card_fin,
    nsmul_eq_mul]
  field_simp

theorem sum_cX_eq_zero {n : ℕ} (hn : (n : ℚ) ≠ 0) (pts : Fin n → Pt) :
    ∑ i, cX pts i = 0 := sum_centered hn _

theorem sum_cY_eq_zero {n : ℕ} (hn : (n : ℚ) ≠ 0) (pts : Fin n → Pt) :
    ∑ i, cY pts i = 0 := sum_centered hn _

theorem sum_comb {n : ℕ} (f1 f2 f3 f4 f5 f6 f7 f8 : Fin n → ℚ)
    (k1 k2 k3 k4 k5 k6 k7 k8 c : ℚ) :
    (∑ i, (k1 * f1 i + k2 * f2 i + k3 * f3 i + k4 * f4 i +
           k5 * f5 i + k6 * f6 i + k7 * f7 i + k8 * f8 i + c))
      = k1 * (∑ i, f1 i) + k2 * (∑ i, f2 i) + k3 * (∑ i, f3 i) + k4 * (∑ i, f4 i)
      + k5 * (∑ i, f5 i) + k6 * (∑ i, f6 i) + k7 * (∑ i, f7 i) + k8 * (∑ i, f8 i)
      + n * c := by
  simp only [Finset.sum_add_distrib, ← Finset.mul_sum, Finset.sum_const,
    Finset.card_univ, Fintype.card_fin, nsmul_eq_mul]

/-- Decomposition of the similarity error into centered components. -/
theorem simErr_expand {n : ℕ} (src dst : Fin n → Pt) (hn : (n : ℚ) ≠ 0)
    (p : SimParams) :
    simErr src dst p =
      (p.a ^ 2 + p.b ^ 2) * spread src
        - 2 * p.a * simNa src dst - 2 * p.b * simNb src dst
        + spread dst
        + n * ((p.tx - meanX dst + p.a * meanX src - p.b * meanY src) ^ 2
             + (p.ty - meanY dst + p.b * meanX src + p.a * meanY src) ^ 2) := by
  have hstep : simErr src dst p =
      ∑ i, ((p.a ^ 2 + p.b ^ 2) * (cX src i ^ 2 + cY src i ^ 2)
        + (-(2 * p.a)) * (cX src i * cX dst i + cY src i * cY dst i)
        + (-(2 * p.b)) * (cX src i * cY dst i - cY src i * cX dst i)
        + 1 * (cX dst i ^ 2 + cY dst i ^ 2)
        + (2 * (p.a * (p.tx - meanX dst + p.a * meanX src - p.b * meanY src)
              + p.b * (p.ty - meanY dst + p.b * meanX src + p.a * meanY src))) * cX src i
        + (2 * (p.a * (p.ty - meanY dst + p.b * meanX src + p.a * meanY src)
              - p.b * (p.tx - meanX dst + p.a * meanX src - p.b * meanY src))) * cY src i
        + (-(2 * (p.tx - meanX dst + p.a * meanX src - p.b * meanY src))) * cX dst i
        + (-(2 * (p.ty - meanY dst + p.b * meanX src + p.a * meanY src))) * cY dst i
        + ((p.tx - meanX dst + p.a * meanX src - p.b * meanY src) ^ 2
         + (p.ty - meanY dst + p.b * meanX src + p.a * meanY src) ^ 2)) := by
    unfold simErr
    refine Finset.sum_congr rfl fun i _ => ?_
    simp only [applySim, cX, cY]
    ring
  rw [hstep, sum_comb]
  rw [sum_cX_eq_zero hn src, sum_cY_eq_zero hn src, sum_cX_eq_zero hn dst,
    sum_cY_eq_zero hn dst]
  have h1 : ∑ i, (cX src i ^ 2 + cY src i ^ 2) = spread src := by
    unfold spread cX cY; rfl
  have h4 : ∑ i, (cX dst i ^ 2 + cY dst i ^ 2) = spread dst := by
    unfold spread cX cY; rfl
  rw [h1, h4]
  unfold simNa simNb
  ring

/-- The closed-form similarity solution (the `ok` payload of `fitSimilarity`). -/
def simFit {n : ℕ} (src dst : Fin n → Pt) : SimParams :=
  ⟨simNa src dst / spread src,
   simNb src dst / spread src,
   meanX dst - (simNa src dst / spread src * meanX src -
                simNb src dst / spread src * meanY src),
   meanY dst - (simNb src dst / spread src * meanX src +
                simNa src dst / spread src * meanY src)⟩

theorem fitSimilarity_ok {n : ℕ} (src dst : Fin n → Pt) (h2 : ¬ n < 2)
    (hsp : spread src ≠ 0) :
    fitSimilarity n src dst = .ok (simFit src dst) := by
  unfold fitSimilarity simFit simNa simNb cX cY
  rw [if_neg h2, if_neg hsp]

/-- Completing the square: how far any candidate is from the fitted optimum. -/
theorem sim_key {n : ℕ} (src dst : Fin n → Pt) (hn : (n : ℚ) ≠ 0)
    (hsp : spread src ≠ 0) (q : SimParams) :
    simErr src dst q - simErr src dst (simFit src dst) =
      spread src * ((q.a - simNa src dst / spread src) ^ 2
                  + (q.b - simNb src dst / spread src) ^ 2)
      + n * ((q.tx - meanX dst + q.a * meanX src - q.b * meanY src) ^ 2
           + (q.ty - meanY dst + q.b * meanX src + q.a * meanY src) ^ 2) := by
  rw [simErr_expand src dst hn q, simErr_expand src dst hn (simFit src dst)]
  simp only [simFit]
  field_simp
  ring

theorem sim_min {n : ℕ} (src dst : Fin n → Pt) (hn : (n : ℚ) ≠ 0)
    (hsp : spread src ≠ 0) (q : SimParams) :
    simErr src dst (simFit src dst) ≤ simErr src dst q := by
  have hkey := sim_key src dst hn hsp q
  have hsp' : 0 < spread src := (spread_nonneg src).lt_of_ne (Ne.symm hsp)
  have h1 : 0 ≤ spread src * ((q.a - simNa src dst / spread src) ^ 2
      + (q.b - simNb src dst / spread src) ^ 2) :=
    mul_nonneg hsp'.le (add_nonneg (sq_nonneg _) (sq_nonneg _))
  have h2 : 0 ≤ (n : ℚ) * ((q.tx - meanX dst + q.a * meanX src - q.b * meanY src) ^ 2
      + (q.ty - meanY dst + q.b * meanX src + q.a * meanY src) ^ 2) :=
    mul_nonneg (Nat.cast_nonneg n) (add_nonneg (sq_nonneg _) (sq_nonneg _))
  linarith

/-- Total squared point-to-point error of an affine transform. -/
def affErr {n : ℕ} (src dst : Fin n → Pt) (p : AffParams) : ℚ :=
  ∑ i, (((applyAff p (src i)).1 - (dst i).1) ^ 2 +
        ((applyAff p (src i)).2 - (dst i).2) ^ 2)

theorem affErr_nonneg {n : ℕ} (src dst : Fin n → Pt) (p : AffParams) :
    0 ≤ affErr src dst p :=
  Finset.sum_nonneg fun i _ => add_nonneg (sq_nonneg _) (sq_nonneg _)

theorem affErr_eq_sqNorm {n : ℕ} (src dst : Fin n → Pt) (p : AffParams) :
    affErr src dst p =
      sqNorm (affA src *ᵥ p.px - fun i => (dst i).1)
      + sqNorm (affA src *ᵥ p.py - fun i => (dst i).2) := by
  unfold affErr sqNorm
  rw [← Finset.sum_add_distrib]
  refine Finset.sum_congr rfl fun i _ => ?_
  simp only [Pi.sub_apply, Matrix.mulVec, Matrix.dotProduct, Fin.sum_univ_three,
    affA, Matrix.of_apply, Matrix.cons_val_zero, Matrix.cons_val_one, Matrix.head_cons,
    Matrix.cons_val_two, Matrix.tail_cons, applyAff]
  ring

/-- Algebraic (direct-linear-transform) least-squares error of a projective
transform: the residual of the linear system the normal equations solve. -/
def projErr {n : ℕ} (src dst : Fin n → Pt) (p : ProjParams) : ℚ :=
  sqNorm (projA src dst *ᵥ p.h - projB dst)

theorem sum_sq_pair_zero {n : ℕ} {f g : Fin n → ℚ}
    (h : ∑ i, (f i ^ 2 + g i ^ 2) = 0) : ∀ i, f i = 0 ∧ g i = 0 := by
  intro i
  have hz := (Finset.sum_eq_zero_iff_of_nonneg
    (fun j _ => add_nonneg (sq_nonneg (f j)) (sq_nonneg (g j)))).mp h i (Finset.mem_univ i)
  have hp := (add_eq_zero_iff_of_nonneg (sq_nonneg (f i)) (sq_nonneg (g i))).mp hz
  exact ⟨by have := hp.1; nlinarith [this], by have := hp.2; nlinarith [this]⟩

theorem fitAffine_ok {n : ℕ} (src dst : Fin n → Pt) (h3 : ¬ n < 3)
    (hdet : detL 3 (affN src) ≠ 0) :
    fitAffine n src dst =
      .ok ⟨solveLin (affN src) ((affA src)ᵀ *ᵥ fun i => (dst i).1),
           solveLin (affN src) ((affA src)ᵀ *ᵥ fun i => (dst i).2)⟩ := by
  unfold fitAffine
  rw [if_neg h3, if_neg hdet]

theorem fitProjective_ok {n : ℕ} (src dst : Fin n → Pt) (h4 : ¬ n < 4)
    (hdet : detL 8 (projN src dst) ≠ 0) :
    fitProjective n src dst =
      .ok ⟨solveLin (projN src dst) ((projA src dst)ᵀ *ᵥ projB dst)⟩ := by
  unfold fitProjective
  rw [if_neg h4, if_neg hdet]

theorem vec8_at0 {α : Type*} (a0 a1 a2 a3 a4 a5 a6 a7 : α) :
    ![a0, a1, a2, a3, a4, a5, a6, a7] (0 : Fin 8) = a0 := rfl

theorem vec8_at1 {α : Type*} (a0 a1 a2 a3 a4 a5 a6 a7 : α) :
    ![a0, a1, a2, a3, a4, a5, a6, a7] (1 : Fin 8) = a1 := rfl

theorem vec8_at2 {α : Type*} (a0 a1 a2 a3 a4 a5 a6 a7 : α) :
    ![a0, a1, a2, a3, a4, a5, a6, a7] (2 : Fin 8) = a2 := rfl

theorem vec8_at3 {α : Type*} (a0 a1 a2 a3 a4 a5 a6 a7 : α) :
    ![a0, a1, a2, a3, a4, a5, a6, a7] (3 : Fin 8) = a3 := rfl

theorem vec8_at4 {α : Type*} (a0 a1 a2 a3 a4 a5 a6 a7 : α) :
    ![a0, a1, a2, a3, a4, a5, a6, a7] (4 : Fin 8) = a4 := rfl

theorem vec8_at5 {α : Type*} (a0 a1 a2 a3 a4 a5 a6 a7 : α) :
    ![a0, a1, a2, a3, a4, a5, a6, a7] (5 : Fin 8) = a5 := rfl

theorem vec8_at6 {α : Type*} (a0 a1 a2 a3 a4 a5 a6 a7 : α) :
    ![a0, a1, a2, a3, a4, a5, a6, a7] (6 : Fin 8) = a6 := rfl

theorem vec8_at7 {α : Type*} (a0 a1 a2 a3 a4 a5 a6 a7 : α) :
    ![a0, a1, a2, a3, a4, a5, a6, a7] (7 : Fin 8) = a7 := rfl

/-- An exact projective correspondence satisfies the DLT linear system. -/
theorem projA_mulVec_of_exact {n : ℕ} (src dst : Fin n → Pt) (p0 : ProjParams)
    (h : ∀ i, applyProj p0 (src i) = some (dst i)) :
    projA src dst *ᵥ p0.h = projB dst := by
  funext r
  cases r with
  | inl i =>
      have hi := h i
      by_cases hw0 : p0.h 6 * (src i).1 + p0.h 7 * (src i).2 + 1 = 0
      · simp [applyProj, hw0] at hi
      · simp only [applyProj] at hi
        rw [if_neg hw0] at hi
        have hx := congrArg Prod.fst (Option.some.inj hi)
        dsimp at hx
        rw [div_eq_iff hw0] at hx
        simp only [Matrix.mulVec, Matrix.dotProduct, Fin.sum_univ_eight, projA,
          Matrix.of_apply, vec8_at0, vec8_at1, vec8_at2, vec8_at3, vec8_at4,
          vec8_at5, vec8_at6, vec8_at7, projB, Sum.elim_inl]
        linear_combination hx
  | inr i =>
      have hi := h i
      by_cases hw0 : p0.h 6 * (src i).1 + p0.h 7 * (src i).2 + 1 = 0
      · simp [applyProj, hw0] at hi
      · simp only [applyProj] at hi
        rw [if_neg hw0] at hi
        have hy := congrArg Prod.snd (Option.some.inj hi)
        dsimp at hy
        rw [div_eq_iff hw0] at hy
        simp only [Matrix.mulVec, Matrix.dotProduct, Fin.sum_univ_eight, projA,
          Matrix.of_apply, vec8_at0, vec8_at1, vec8_at2, vec8_at3, vec8_at4,
          vec8_at5, vec8_at6, vec8_at7, projB, Sum.elim_inr]
        linear_combination hy

/-- C2: for every valid (non-degenerate, at or above the family minimum)
similarity/affine/projective correspondence set, the fit succeeds; when the
data are exactly consistent with some transform of the family, projecting
the source points reproduces the destination points exactly (the rational
model's rendering of "within a small numerical tolerance"); and the fitted
parameters minimize the total squared error, which covers the
overdetermined case. -/
theorem fit_project_roundtrip :
    (∀ (n : ℕ) (src dst : Fin n → Pt), 2 ≤ n → spread src ≠ 0 →
      ∃ p, fitSimilarity n src dst = .ok p ∧
        (∀ p0, (∀ i, applySim p0 (src i) = dst i) →
          ∀ i, applySim p (src i) = dst i) ∧
        (∀ q, simErr src dst p ≤ simErr src dst q)) ∧
    (∀ (n : ℕ) (src dst : Fin n → Pt), 3 ≤ n → detL 3 (affN src) ≠ 0 →
      ∃ p, fitAffine n src dst = .ok p ∧
        (∀ p0, (∀ i, applyAff p0 (src i) = dst i) →
          ∀ i, applyAff p (src i) = dst i) ∧
        (∀ q, affErr src dst p ≤ affErr src dst q)) ∧
    (∀ (n : ℕ) (src dst : Fin n → Pt), 4 ≤ n → detL 8 (projN src dst) ≠ 0 →
      ∃ p, fitProjective n src dst = .ok p ∧
        (∀ p0, (∀ i, applyProj p0 (src i) = some (dst i)) →
          ∀ i, applyProj p (src i) = some (dst i)) ∧
        (∀ q, projErr src dst p ≤ projErr src dst q)) := by
  refine ⟨?_, ?_, ?_⟩
  · -- similarity
    intro n src dst h2 hsp
    have hn : (n : ℚ) ≠ 0 := Nat.cast_ne_zero.mpr (by omega)
    refine ⟨simFit src dst, fitSimilarity_ok src dst (by omega) hsp, ?_,
      sim_min src dst hn hsp⟩
    intro p0 hp0 i
    have hE0 : simErr src dst p0 = 0 := by
      unfold simErr
      exact Finset.sum_eq_zero fun j _ => by rw [hp0 j]; ring
    have hfit0 : simErr src dst (simFit src dst) = 0 :=
      le_antisymm (hE0 ▸ sim_min src dst hn hsp p0) (simErr_nonneg src dst _)
    have hpt := sum_sq_pair_zero (n := n)
      (f := fun j => (applySim (simFit src dst) (src j)).1 - (dst j).1)
      (g := fun j => (applySim (simFit src dst) (src j)).2 - (dst j).2) hfit0 i
    exact Prod.ext (sub_eq_zero.mp hpt.1) (sub_eq_zero.mp hpt.2)
  · -- affine
    intro n src dst h3 hdet
    have hx : ((affA src)ᵀ * affA src) *ᵥ
        solveLin (affN src) ((affA src)ᵀ *ᵥ fun i => (dst i).1) =
        (affA src)ᵀ *ᵥ fun i => (dst i).1 :=
      solveLin_correct (affN src) _ hdet
    have hy : ((affA src)ᵀ * affA src) *ᵥ
        solveLin (affN src) ((affA src)ᵀ *ᵥ fun i => (dst i).2) =
        (affA src)ᵀ *ᵥ fun i => (dst i).2 :=
      solveLin_correct (affN src) _ hdet
    have hmin : ∀ q : AffParams,
        affErr src dst ⟨solveLin (affN src) ((affA src)ᵀ *ᵥ fun i => (dst i).1),
                        solveLin (affN src) ((affA src)ᵀ *ᵥ fun i => (dst i).2)⟩
          ≤ affErr src dst q := by
      intro q
      rw [affErr_eq_sqNorm src dst, affErr_eq_sqNorm src dst]
      exact add_le_add (normal_eq_minimizes (affA src) _ _ hx q.px)
        (normal_eq_minimizes (affA src) _ _ hy q.py)
    refine ⟨⟨solveLin (affN src) ((affA src)ᵀ *ᵥ fun i => (dst i).1),
             solveLin (affN src) ((affA src)ᵀ *ᵥ fun i => (dst i).2)⟩,
      fitAffine_ok src dst (by omega) hdet, ?_, hmin⟩
    intro p0 hp0 i
    have hE0 : affErr src dst p0 = 0 := by
      unfold affErr
      exact Finset.sum_eq_zero fun j _ => by rw [hp0 j]; ring
    have hfit0 : affErr src dst
        ⟨solveLin (affN src) ((affA src)ᵀ *ᵥ fun i => (dst i).1),
         solveLin (affN src) ((affA src)ᵀ *ᵥ fun i => (dst i).2)⟩ = 0 :=
      le_antisymm (hE0 ▸ hmin p0) (affErr_nonneg src dst _)
    have hpt := sum_sq_pair_zero (n := n)
      (f := fun j => (applyAff _ (src j)).1 - (dst j).1)
      (g := fun j => (applyAff _ (src j)).2 - (dst j).2) hfit0 i
    exact Prod.ext (sub_eq_zero.mp hpt.1) (sub_eq_zero.mp hpt.2)
  · -- projective
    intro n src dst h4 hdet
    have hstar : ((projA src dst)ᵀ * projA src dst) *ᵥ
        solveLin (projN src dst) ((projA src dst)ᵀ *ᵥ projB dst) =
        (projA src dst)ᵀ *ᵥ projB dst :=
      solveLin_correct (projN src dst) _ hdet
    refine ⟨⟨solveLin (projN src dst) ((projA src dst)ᵀ *ᵥ projB dst)⟩,
      fitProjective_ok src dst (by omega) hdet, ?_, ?_⟩
    · intro p0 hp0 i
      have hrow := projA_mulVec_of_exact src dst p0 hp0
      have hN0 : ((projA src dst)ᵀ * projA src dst) *ᵥ p0.h =
          (projA src dst)ᵀ *ᵥ projB dst := by
        rw [← Matrix.mulVec_mulVec, hrow]
      have heq : solveLin (projN src dst) ((projA src dst)ᵀ *ᵥ projB dst) = p0.h :=
        mulVec_unique hdet hstar hN0
      rw [show (⟨solveLin (projN src dst) ((projA src dst)ᵀ *ᵥ projB dst)⟩ :
        ProjParams) = p0 from by rw [heq]]
      exact hp0 i
    · intro q
      unfold projErr
      exact normal_eq_minimizes (projA src dst) (projB dst) _ hstar q.h

/-- Concrete correspondence sets used to witness the solver claims. -/
def wsrc2 : Fin 2 → Pt := ![(0, 0), (10, 0)]

def wdst2 : Fin 2 → Pt := ![(5, 5), (15, 5)]

def wsrc3 : Fin 3 → Pt := ![(0, 0), (10, 0), (0, 10)]

def wdst3 : Fin 3 → Pt := ![(1, 1), (11, 2), (2, 11)]

def sq4 : Fin 4 → Pt := ![(0, 0), (1, 0), (0, 1), (1, 1)]

theorem sq4_at0 : sq4 0 = (0, 0) := rfl

theorem sq4_at1 : sq4 1 = (1, 0) := rfl

theorem sq4_at2 : sq4 2 = (0, 1) := rfl

theorem sq4_at3 : sq4 3 = (1, 1) := rfl

/-- Witness for C2 at concrete well-posed correspondence sets. -/
theorem fit_project_roundtrip_w :
    (∃ p, fitSimilarity 2 wsrc2 wdst2 = .ok p ∧
      (∀ p0, (∀ i, applySim p0 (wsrc2 i) = wdst2 i) →
        ∀ i, applySim p (wsrc2 i) = wdst2 i) ∧
      (∀ q, simErr wsrc2 wdst2 p ≤ simErr wsrc2 wdst2 q)) ∧
    (∃ p, fitAffine 3 wsrc3 wdst3 = .ok p ∧
      (∀ p0, (∀ i, applyAff p0 (wsrc3 i) = wdst3 i) →
        ∀ i, applyAff p (wsrc3 i) = wdst3 i) ∧
      (∀ q, affErr wsrc3 wdst3 p ≤ affErr wsrc3 wdst3 q)) ∧
    (∃ p, fitProjective 4 sq4 sq4 = .ok p ∧
      (∀ p0, (∀ i, applyProj p0 (sq4 i) = some (sq4 i)) →
        ∀ i, applyProj p (sq4 i) = some (sq4 i)) ∧
      (∀ q, projErr sq4 sq4 p ≤ projErr sq4 sq4 q)) := by
  refine ⟨fit_project_roundtrip.1 2 wsrc2 wdst2 (by norm_num) ?_,
          fit_project_roundtrip.2.1 3 wsrc3 wdst3 (by norm_num) ?_,
          fit_project_roundtrip.2.2 4 sq4 sq4 (by norm_num) ?_⟩
  · show spread wsrc2 ≠ 0
    norm_num [spread, meanX, meanY, Fin.sum_univ_two, wsrc2,
      Matrix.cons_val_zero, Matrix.cons_val_one, Matrix.head_cons]
  · show detL 3 (affN wsrc3) ≠ 0
    apply gram_detL_ne_zero (affA wsrc3)
    intro v hv
    have e0 := congrFun hv 0
    have e1 := congrFun hv 1
    have e2 := congrFun hv 2
    simp [Matrix.mulVec, Matrix.dotProduct, Fin.sum_univ_three, affA, Matrix.of_apply,
      wsrc3, Matrix.cons_val_zero, Matrix.cons_val_one, Matrix.head_cons,
      Matrix.cons_val_two, Matrix.tail_cons] at e0 e1 e2
    have h0 : v 0 = 0 := by linarith
    have h1 : v 1 = 0 := by linarith
    have h2 : v 2 = 0 := by linarith
    funext k
    fin_cases k <;> simp_all
  · show detL 8 (projN sq4 sq4) ≠ 0
    apply gram_detL_ne_zero (projA sq4 sq4)
    intro v hv
    have e1 := congrFun hv (Sum.inl 0)
    have e2 := congrFun hv (Sum.inl 1)
    have e3 := congrFun hv (Sum.inl 2)
    have e4 := congrFun hv (Sum.inl 3)
    have e5 := congrFun hv (Sum.inr 0)
    have e6 := congrFun hv (Sum.inr 1)
    have e7 := congrFun hv (Sum.inr 2)
    have e8 := congrFun hv (Sum.inr 3)
    simp [Matrix.mulVec, Matrix.dotProduct, Fin.sum_univ_eight, projA, Matrix.of_apply,
      sq4_at0, sq4_at1, sq4_at2, sq4_at3, vec8_at0, vec8_at1, vec8_at2, vec8_at3,
      vec8_at4, vec8_at5, vec8_at6, vec8_at7] at e1 e2 e3 e4 e5 e6 e7 e8
    have h2 : v 2 = 0 := by linarith
    have h1 : v 1 = 0 := by linarith
    have h5 : v 5 = 0 := by linarith
    have h3 : v 3 = 0 := by linarith
    have h7 : v 7 = 0 := by linarith
    have h4 : v 4 = 0 := by linarith
    have h6 : v 6 = 0 := by linarith
    have h0 : v 0 = 0 := by linarith
    funext k
    fin_cases k <;> simp_all

/-! ### Images, border policy, extract, rotation

Modelled from the spec: the resampling core is missing from the repository
snapshot, so the Image data model (§3), Border Policy (§4.4), Rotation
Planner (§4.3) and Resampler's extract/rotate operations (§4.6) are
reconstructed here.  Pixel buffers are modelled functionally (row-major
access by (row, col)); subpixel geometry uses exact rationals, and the
rotation angle enters the geometry only through its cosine/sine pair. -/

/-- An image: positive dimensions and row-major pixel access `pix row col`
(reads outside `[0, rows) × [0, cols)` are never used by the operations). -/
structure Image (α : Type) where
  rows : ℕ
  cols : ℕ
  pix : ℕ → ℕ → α

/-- An RGB pixel with natural-number channels; zero is black. -/
structure Rgb where
  r : ℕ
  g : ℕ
  b : ℕ
deriving DecidableEq

instance : Zero Rgb := ⟨⟨0, 0, 0⟩⟩

/-- Border policy tag (spec §4.4). -/
inductive BorderMode where
  | zero
  | replicate
  | mirror
deriving DecidableEq

/-- A crop rectangle; may extend outside an image's bounds. -/
structure Rect where
  left : ℤ
  top : ℤ
  right : ℤ
  bottom : ℤ

/-- Replicate policy: clamp a coordinate to the nearest valid edge. -/
def clampCoord (size : ℕ) (x : ℤ) : ℕ := min x.toNat (size - 1)

/-- Mirror policy: reflect the coordinate back into range (index `-k` maps
to `k-1`, generalized for repeated reflection by reducing mod `2·size`). -/
def mirrorCoord (size : ℕ) (x : ℤ) : ℕ :=
  let m := (x % (2 * size)).toNat
  if m < size then m else 2 * size - 1 - m

/-- Resolve one sample through the border policy (queried per coordinate). -/
def samplePix {α : Type} [Zero α] (border : BorderMode) (img : Image α)
    (x y : ℤ) : α :=
  match border with
  | .zero =>
      if 0 ≤ x ∧ x < (img.cols : ℤ) ∧ 0 ≤ y ∧ y < (img.rows : ℤ) then
        img.pix y.toNat x.toNat
      else 0
  | .replicate => img.pix (clampCoord img.rows y) (clampCoord img.cols x)
  | .mirror => img.pix (mirrorCoord img.rows y) (mirrorCoord img.cols x)

/-- Extract (spec §4.6): output dimensions are the rectangle's size, and
output pixel (i, j) samples source (left + j, top + i) through the border
policy directly, with no interpolation. -/
def extract {α : Type} [Zero α] (img : Image α) (rect : Rect)
    (border : BorderMode) : Image α where
  rows := (rect.bottom - rect.top).toNat
  cols := (rect.right - rect.left).toNat
  pix := fun i j => samplePix border img (rect.left + j) (rect.top + i)

/-- Model of an IEEE double as received from the binding layer. -/
inductive F64 where
  | nan
  | posInf
  | negInf
  | finite (q : ℚ)

/-- Largest finite single-precision magnitude, `(2 - 2⁻²³)·2¹²⁷`. -/
def maxF32 : ℚ := 2 ^ 128 - 2 ^ 104

/-- Angle validation (spec §4.3): finite and within the representable
single-precision magnitude range. -/
def validAngle : F64 → Bool
  | .finite q => decide (|q| ≤ maxF32)
  | _ => false

/-- Validation message required for rejected angles. -/
def angleErrMsg : String := "Angle must be a finite number"

/-- Keyword that the angle validation message must mention. -/
def finiteKeyword : String := "finite number"

/-- Nearest-neighbor rounding: ties round toward positive infinity. -/
def rnd (q : ℚ) : ℤ := ⌊q + 1 / 2⌋

/-- Output canvas width: the horizontal extent of the axis-aligned bounding
box of the four rotated corners of a `w × h` source rectangle. -/
def rotCols (c s : ℚ) (w h : ℕ) : ℕ := (⌈(w : ℚ) * |c| + (h : ℚ) * |s|⌉).toNat

/-- Output canvas height, analogously. -/
def rotRows (c s : ℚ) (w h : ℕ) : ℕ := (⌈(w : ℚ) * |s| + (h : ℚ) * |c|⌉).toNat

/-- Source x coordinate for destination pixel (i, j) under the inverse
rotation about the two canvas centers. -/
def rotSrcX (c s : ℚ) (w h cw ch : ℕ) (i j : ℕ) : ℚ :=
  c * ((j : ℚ) - (cw : ℚ) / 2) + s * ((i : ℚ) - (ch : ℚ) / 2) + (w : ℚ) / 2

/-- Source y coordinate for destination pixel (i, j), analogously. -/
def rotSrcY (c s : ℚ) (w h cw ch : ℕ) (i j : ℕ) : ℚ :=
  -s * ((j : ℚ) - (cw : ℚ) / 2) + c * ((i : ℚ) - (ch : ℚ) / 2) + (h : ℚ) / 2

/-- Rotation geometry: inverse-map each destination pixel of the enlarged
canvas to a source coordinate and sample it (nearest-neighbor kernel)
through the border policy. -/
def rotateCS {α : Type} [Zero α] (img : Image α) (c s : ℚ)
    (border : BorderMode) : Image α where
  rows := rotRows c s img.cols img.rows
  cols := rotCols c s img.cols img.rows
  pix := fun i j =>
    samplePix border img
      (rnd (rotSrcX c s img.cols img.rows
        (rotCols c s img.cols img.rows) (rotRows c s img.cols img.rows) i j))
      (rnd (rotSrcY c s img.cols img.rows
        (rotCols c s img.cols img.rows) (rotRows c s img.cols img.rows) i j))

/-- Rotate as exposed to the binding (spec §4.3/§6): validate the angle
before any numerical work; the cosine/sine pair `(c, s)` carries the
geometry; an omitted border argument defaults to zero-fill. -/
def rotate {α : Type} [Zero α] (img : Image α) (angle : F64) (c s : ℚ)
    (border : Option BorderMode) : Except String (Image α) :=
  if validAngle angle then .ok (rotateCS img c s (border.getD .zero))
  else .error angleErrMsg

/-- Forward map of a source point into the destination canvas frame. -/
def rotFwd (c s : ℚ) (w h cw ch : ℕ) (p : ℚ × ℚ) : ℚ × ℚ :=
  (c * (p.1 - (w : ℚ) / 2) - s * (p.2 - (h : ℚ) / 2) + (cw : ℚ) / 2,
   s * (p.1 - (w : ℚ) / 2) + c * (p.2 - (h : ℚ) / 2) + (ch : ℚ) / 2)

/-- C3: for every rotation angle that is NaN, ±infinity, or of magnitude
beyond the single-precision-representable range, `rotate` fails with a
validation error whose message contains "finite number", independently of
the image and of all rotation geometry (i.e. before any numerical work). -/
theorem rotate_angle_validation :
    (∀ (α : Type) [inst : Zero α] (img : Image α) (c s : ℚ) (b : Option BorderMode),
      rotate img F64.nan c s b = .error angleErrMsg ∧
      rotate img F64.posInf c s b = .error angleErrMsg ∧
      rotate img F64.negInf c s b = .error angleErrMsg) ∧
    (∀ q : ℚ, maxF32 < |q| →
      ∀ (α : Type) [inst : Zero α] (img : Image α) (c s : ℚ) (b : Option BorderMode),
        rotate img (F64.finite q) c s b = .error angleErrMsg) ∧
    strHas angleErrMsg finiteKeyword = true ∧
    angleErrMsg = "Angle must be a finite number" := by
  refine ⟨?_, ?_, by decide, rfl⟩
  · intro α inst img c s b
    exact ⟨rfl, rfl, rfl⟩
  · intro q hq α inst img c s b
    simp only [rotate, validAngle, decide_eq_true_eq]
    rw [if_neg hq.not_le]

/-- Witness for C3 at NaN and at the out-of-single-precision value 1e39. -/
theorem rotate_angle_validation_w :
    rotate (⟨10, 10, fun _ _ => 0⟩ : Image Rgb) F64.nan 1 0 none
      = .error angleErrMsg ∧
    rotate (⟨10, 10, fun _ _ => 0⟩ : Image Rgb) (F64.finite (10 ^ 39)) 1 0 none
      = .error angleErrMsg :=
  ⟨(rotate_angle_validation.1 Rgb ⟨10, 10, fun _ _ => 0⟩ 1 0 none).1,
   rotate_angle_validation.2.1 (10 ^ 39)
     (by rw [abs_of_nonneg (by norm_num)]; norm_num [maxF32])
     Rgb ⟨10, 10, fun _ _ => 0⟩ 1 0 none⟩

/-- C6: for every rectangle (also one extending outside the source) and
every border mode, `extract` produces an image whose dimensions equal the
rectangle's size, and each output pixel (i, j) is the source pixel at
(left + j, top + i) resolved directly through the border policy, with no
interpolation applied. -/
theorem extract_semantics :
    ∀ (α : Type) [inst : Zero α] (img : Image α) (rect : Rect) (border : BorderMode),
      (extract img rect border).rows = (rect.bottom - rect.top).toNat ∧
      (extract img rect border).cols = (rect.right - rect.left).toNat ∧
      ∀ i j : ℕ, (extract img rect border).pix i j
        = samplePix border img (rect.left + (j : ℤ)) (rect.top + (i : ℤ)) := by
  intro α inst img rect border
  exact ⟨rfl, rfl, fun _ _ => rfl⟩

/-- C4: border-policy behavior outside `[0, cols) × [0, rows)`: replicate
clamps to the nearest edge coordinate (so rotate/extract corner pixels
replicate the nearest source edge pixel); zero yields the format's
zero/black pixel; mirror maps index `-k` to `k-1`, so an extract of a
rectangle straddling the origin reproduces mirrored source content rather
than a zero fill. -/
theorem border_policy_semantics :
    (∀ (n : ℕ) (x : ℤ), x < 0 → clampCoord n x = 0) ∧
    (∀ (n : ℕ) (x : ℤ), 0 < n → (n : ℤ) ≤ x → clampCoord n x = n - 1) ∧
    (∀ (α : Type) [inst : Zero α] (img : Image α) (x y : ℤ),
      samplePix .replicate img x y
        = img.pix (clampCoord img.rows y) (clampCoord img.cols x)) ∧
    (∀ (α : Type) [inst : Zero α] (img : Image α) (x y : ℤ),
      ¬(0 ≤ x ∧ x < (img.cols : ℤ) ∧ 0 ≤ y ∧ y < (img.rows : ℤ)) →
      samplePix .zero img x y = 0) ∧
    (∀ n k : ℕ, 1 ≤ k → k ≤ n → mirrorCoord n (-(k : ℤ)) = k - 1) ∧
    (∀ (α : Type) [inst : Zero α] (img : Image α) (rect : Rect) (i j kx ky : ℕ),
      1 ≤ kx → kx ≤ img.cols → 1 ≤ ky → ky ≤ img.rows →
      rect.left + (j : ℤ) = -(kx : ℤ) → rect.top + (i : ℤ) = -(ky : ℤ) →
      (extract img rect .mirror).pix i j = img.pix (ky - 1) (kx - 1)) ∧
    (∀ (α : Type) [inst : Zero α] (img : Image α) (rect : Rect) (i j : ℕ),
      rect.left + (j : ℤ) < 0 → rect.top + (i : ℤ) < 0 →
      (extract img rect .replicate).pix i j = img.pix 0 0) ∧
    (∀ (α : Type) [inst : Zero α] (img : Image α) (rect : Rect) (i j : ℕ),
      ¬(0 ≤ rect.left + (j : ℤ) ∧ rect.left + (j : ℤ) < (img.cols : ℤ) ∧
        0 ≤ rect.top + (i : ℤ) ∧ rect.top + (i : ℤ) < (img.rows : ℤ)) →
      (extract img rect .zero).pix i j = 0) ∧
    (∀ (α : Type) [inst : Zero α] (img : Image α) (c s : ℚ) (b : BorderMode) (i j : ℕ),
      (rotateCS img c s b).pix i j
        = samplePix b img
            (rnd (rotSrcX c s img.cols img.rows (rotCols c s img.cols img.rows)
              (rotRows c s img.cols img.rows) i j))
            (rnd (rotSrcY c s img.cols img.rows (rotCols c s img.cols img.rows)
              (rotRows c s img.cols img.rows) i j))) := by
  have hmirror : ∀ n k : ℕ, 1 ≤ k → k ≤ n → mirrorCoord n (-(k : ℤ)) = k - 1 := by
    intro n k h1 h2
    have hmod : (-(k : ℤ)) % (2 * n) = 2 * n - k := by
      rw [show (-(k : ℤ)) = (2 * (n : ℤ) - k) + (2 * n) * (-1) by ring,
        Int.add_mul_emod_self_left, Int.emod_eq_of_lt (by omega) (by omega)]
    simp only [mirrorCoord, hmod]
    rw [if_neg (by omega)]
    omega
  refine ⟨fun n x hx => by unfold clampCoord; omega,
          fun n x hn hx => by unfold clampCoord; omega,
          ?_, ?_, hmirror, ?_, ?_, ?_, ?_⟩
  · intro α inst img x y
    rfl
  · intro α inst img x y h
    unfold samplePix
    rw [if_neg h]
  · intro α inst img rect i j kx ky h1 h2 h3 h4 hx hy
    show samplePix .mirror img (rect.left + (j : ℤ)) (rect.top + (i : ℤ)) = _
    rw [hx, hy]
    unfold samplePix
    rw [hmirror img.cols kx h1 h2, hmirror img.rows ky h3 h4]
  · intro α inst img rect i j hx hy
    show samplePix .replicate img (rect.left + (j : ℤ)) (rect.top + (i : ℤ)) = _
    unfold samplePix
    rw [show clampCoord img.cols (rect.left + (j : ℤ)) = 0 from by unfold clampCoord; omega,
        show clampCoord img.rows (rect.top + (i : ℤ)) = 0 from by unfold clampCoord; omega]
  · intro α inst img rect i j h
    show samplePix .zero img (rect.left + (j : ℤ)) (rect.top + (i : ℤ)) = 0
    unfold samplePix
    rw [if_neg h]
  · intro α inst img c s b i j
    rfl

theorem ceil_cast_le (q : ℚ) (h0 : 0 ≤ q) : q ≤ ((⌈q⌉.toNat : ℕ) : ℚ) := by
  have hc : (0 : ℤ) ≤ ⌈q⌉ := Int.ceil_nonneg h0
  have h1 : ((⌈q⌉.toNat : ℕ) : ℚ) = ((⌈q⌉ : ℤ) : ℚ) := by
    exact_mod_cast Int.toNat_of_nonneg hc
  rw [h1]
  exact Int.le_ceil q

/-- C5: rotation sizes the output canvas as the axis-aligned bounding box
of the four rotated source corners (every corner's forward image lies
inside the canvas: nothing is cropped), and a proper rotation (cosine and
sine both nonzero) of a square image strictly enlarges both dimensions —
in particular a 45°-type rotation of a 10×10 image yields rows, cols > 10. -/
theorem rotate_canvas_bbox :
    (∀ (c s : ℚ) (w h : ℕ) (x y : ℚ), (x = 0 ∨ x = (w : ℚ)) → (y = 0 ∨ y = (h : ℚ)) →
      0 ≤ (rotFwd c s w h (rotCols c s w h) (rotRows c s w h) (x, y)).1 ∧
      (rotFwd c s w h (rotCols c s w h) (rotRows c s w h) (x, y)).1
        ≤ (rotCols c s w h : ℚ) ∧
      0 ≤ (rotFwd c s w h (rotCols c s w h) (rotRows c s w h) (x, y)).2 ∧
      (rotFwd c s w h (rotCols c s w h) (rotRows c s w h) (x, y)).2
        ≤ (rotRows c s w h : ℚ)) ∧
    (∀ (α : Type) [inst : Zero α] (img : Image α) (c s : ℚ) (b : BorderMode),
      c ^ 2 + s ^ 2 = 1 → c ≠ 0 → s ≠ 0 → img.rows = img.cols → 0 < img.rows →
      img.rows < (rotateCS img c s b).rows ∧ img.cols < (rotateCS img c s b).cols) := by
  constructor
  · intro c s w h x y hx hy
    have habsx : |x - (w : ℚ) / 2| = (w : ℚ) / 2 := by
      rcases hx with hx | hx <;> rw [hx]
      · rw [zero_sub, abs_neg, abs_of_nonneg (by positivity)]
      · rw [show (w : ℚ) - (w : ℚ) / 2 = (w : ℚ) / 2 by ring,
          abs_of_nonneg (by positivity)]
    have habsy : |y - (h : ℚ) / 2| = (h : ℚ) / 2 := by
      rcases hy with hy | hy <;> rw [hy]
      · rw [zero_sub, abs_neg, abs_of_nonneg (by positivity)]
      · rw [show (h : ℚ) - (h : ℚ) / 2 = (h : ℚ) / 2 by ring,
          abs_of_nonneg (by positivity)]
    have hcw : (w : ℚ) * |c| + (h : ℚ) * |s| ≤ ((rotCols c s w h : ℕ) : ℚ) :=
      ceil_cast_le _ (by positivity)
    have hch : (w : ℚ) * |s| + (h : ℚ) * |c| ≤ ((rotRows c s w h : ℕ) : ℚ) :=
      ceil_cast_le _ (by positivity)
    have hb1 : |c * (x - (w : ℚ) / 2) - s * (y - (h : ℚ) / 2)|
        ≤ (w : ℚ) * |c| / 2 + (h : ℚ) * |s| / 2 := by
      calc |c * (x - (w : ℚ) / 2) - s * (y - (h : ℚ) / 2)|
          ≤ |c * (x - (w : ℚ) / 2)| + |s * (y - (h : ℚ) / 2)| := abs_sub _ _
        _ = |c| * ((w : ℚ) / 2) + |s| * ((h : ℚ) / 2) := by
            rw [abs_mul, abs_mul, habsx, habsy]
        _ = (w : ℚ) * |c| / 2 + (h : ℚ) * |s| / 2 := by ring
    have hb2 : |s * (x - (w : ℚ) / 2) + c * (y - (h : ℚ) / 2)|
        ≤ (w : ℚ) * |s| / 2 + (h : ℚ) * |c| / 2 := by
      calc |s * (x - (w : ℚ) / 2) + c * (y - (h : ℚ) / 2)|
          ≤ |s * (x - (w : ℚ) / 2)| + |c * (y - (h : ℚ) / 2)| := abs_add _ _
        _ = |s| * ((w : ℚ) / 2) + |c| * ((h : ℚ) / 2) := by
            rw [abs_mul, abs_mul, habsx, habsy]
        _ = (w : ℚ) * |s| / 2 + (h : ℚ) * |c| / 2 := by ring
    obtain ⟨hlo1, hhi1⟩ := abs_le.mp hb1
    obtain ⟨hlo2, hhi2⟩ := abs_le.mp hb2
    unfold rotFwd
    dsimp only
    refine ⟨by linarith, by linarith, by linarith, by linarith⟩
  · intro α inst img c s b hcs hc hs hsq hpos
    have habs : 1 < |c| + |s| := by
      nlinarith [abs_pos.mpr hc, abs_pos.mpr hs, abs_nonneg c, abs_nonneg s,
        sq_abs c, sq_abs s, mul_pos (abs_pos.mpr hc) (abs_pos.mpr hs)]
    constructor
    · show img.rows < rotRows c s img.cols img.rows
      unfold rotRows
      have hlt : ((img.rows : ℤ) : ℚ) <
          (img.cols : ℚ) * |s| + (img.rows : ℚ) * |c| := by
        rw [← hsq]
        push_cast
        have hpos' : (0 : ℚ) < (img.rows : ℚ) := by exact_mod_cast hpos
        nlinarith [hpos']
      have := Int.lt_ceil.mpr hlt
      omega
    · show img.cols < rotCols c s img.cols img.rows
      unfold rotCols
      have hlt : ((img.cols : ℤ) : ℚ) <
          (img.cols : ℚ) * |c| + (img.rows : ℚ) * |s| := by
        rw [← hsq]
        push_cast
        have hpos' : (0 : ℚ) < (img.rows : ℚ) := Nat.cast_pos.mpr hpos
        nlinarith [hpos']
      have := Int.lt_ceil.mpr hlt
      omega

/-- Concrete all-white 10×10 RGB image used by the border witnesses. -/
def wimg10 : Image Rgb := ⟨10, 10, fun _ _ => ⟨255, 255, 255⟩⟩

/-- Witness for C5 with the rational rotation (c, s) = (3/5, 4/5) on a
10×10 image: both output dimensions strictly exceed 10, and the corner
(0, 0) maps inside the canvas. -/
theorem rotate_canvas_bbox_w :
    (0 ≤ (rotFwd (3/5) (4/5) 10 10 (rotCols (3/5) (4/5) 10 10)
        (rotRows (3/5) (4/5) 10 10) (0, 0)).1 ∧
     (rotFwd (3/5) (4/5) 10 10 (rotCols (3/5) (4/5) 10 10)
        (rotRows (3/5) (4/5) 10 10) (0, 0)).1 ≤ (rotCols (3/5) (4/5) 10 10 : ℚ) ∧
     0 ≤ (rotFwd (3/5) (4/5) 10 10 (rotCols (3/5) (4/5) 10 10)
        (rotRows (3/5) (4/5) 10 10) (0, 0)).2 ∧
     (rotFwd (3/5) (4/5) 10 10 (rotCols (3/5) (4/5) 10 10)
        (rotRows (3/5) (4/5) 10 10) (0, 0)).2 ≤ (rotRows (3/5) (4/5) 10 10 : ℚ)) ∧
    wimg10.rows < (rotateCS wimg10 (3/5) (4/5) BorderMode.zero).rows ∧
    wimg10.cols < (rotateCS wimg10 (3/5) (4/5) BorderMode.zero).cols :=
  ⟨rotate_canvas_bbox.1 (3/5) (4/5) 10 10 0 0 (Or.inl rfl) (Or.inl rfl),
   rotate_canvas_bbox.2 Rgb wimg10 (3/5) (4/5) BorderMode.zero
     (by norm_num) (by norm_num) (by norm_num) rfl (by norm_num [wimg10])⟩

theorem ceilToNat_eq (q : ℚ) (m : ℕ) (h1 : (m : ℚ) - 1 < q) (h2 : q ≤ (m : ℚ)) :
    (⌈q⌉).toNat = m := by
  have hz : ⌈q⌉ = (m : ℤ) := Int.ceil_eq_iff.mpr ⟨by exact_mod_cast h1, by exact_mod_cast h2⟩
  rw [hz]
  exact Int.toNat_natCast m

/-- C10: `rotate` without a border argument uses zero-fill: it returns the
same image as with border explicitly set to zero, and any output pixel
whose inverse-mapped (nearest-neighbor) source coordinate falls outside
the source is the format's zero/black pixel under the default. -/
theorem rotate_default_border :
    (∀ (α : Type) [inst : Zero α] (img : Image α) (angle : F64) (c s : ℚ),
      rotate img angle c s none = rotate img angle c s (some .zero)) ∧
    (∀ (α : Type) [inst : Zero α] (img : Image α) (c s : ℚ) (i j : ℕ),
      ¬(0 ≤ rnd (rotSrcX c s img.cols img.rows (rotCols c s img.cols img.rows)
            (rotRows c s img.cols img.rows) i j) ∧
        rnd (rotSrcX c s img.cols img.rows (rotCols c s img.cols img.rows)
            (rotRows c s img.cols img.rows) i j) < (img.cols : ℤ) ∧
        0 ≤ rnd (rotSrcY c s img.cols img.rows (rotCols c s img.cols img.rows)
            (rotRows c s img.cols img.rows) i j) ∧
        rnd (rotSrcY c s img.cols img.rows (rotCols c s img.cols img.rows)
            (rotRows c s img.cols img.rows) i j) < (img.rows : ℤ)) →
      (rotateCS img c s .zero).pix i j = 0 ∧
      (rotateCS img c s ((none : Option BorderMode).getD .zero)).pix i j = 0) := by
  constructor
  · intro α inst img angle c s
    rfl
  · intro α inst img c s i j h
    constructor <;>
    · show samplePix .zero img _ _ = 0
      unfold samplePix
      rw [if_neg h]

/-- Witness for C10: (c, s) = (3/5, 4/5) on the white 10×10 image; the
canvas corner (0, 0) inverse-maps to column -24/5, rounding to -5, outside
the source, so the default-border corner is black. -/
theorem rotate_default_border_w :
    rotate wimg10 (F64.finite 1) (3/5) (4/5) none
      = rotate wimg10 (F64.finite 1) (3/5) (4/5) (some .zero) ∧
    (rotateCS wimg10 (3/5) (4/5) .zero).pix 0 0 = 0 := by
  have hcw : rotCols (3/5) (4/5) 10 10 = 14 := by
    unfold rotCols
    rw [show |(3/5 : ℚ)| = 3/5 from abs_of_pos (by norm_num),
        show |(4/5 : ℚ)| = 4/5 from abs_of_pos (by norm_num)]
    exact ceilToNat_eq _ 14 (by norm_num) (by norm_num)
  have hch : rotRows (3/5) (4/5) 10 10 = 14 := by
    unfold rotRows
    rw [show |(3/5 : ℚ)| = 3/5 from abs_of_pos (by norm_num),
        show |(4/5 : ℚ)| = 4/5 from abs_of_pos (by norm_num)]
    exact ceilToNat_eq _ 14 (by norm_num) (by norm_num)
  refine ⟨rotate_default_border.1 Rgb wimg10 (F64.finite 1) (3/5) (4/5),
    (rotate_default_border.2 Rgb wimg10 (3/5) (4/5) 0 0 ?_).1⟩
  rw [show wimg10.cols = 10 from rfl, show wimg10.rows = 10 from rfl, hcw, hch]
  rw [show rnd (rotSrcX (3/5) (4/5) 10 10 14 14 0 0) = -5 from by
    unfold rotSrcX rnd; norm_num]
  intro hcon
  exact absurd hcon.1 (by norm_num)

/-- Witness for C4: concrete out-of-range samples under each border mode,
at the inputs of the binding tests (rect from (-5,-5) to (5,5)). -/
theorem border_policy_semantics_w :
    clampCoord 10 (-3) = 0 ∧ clampCoord 10 12 = 9 ∧
    mirrorCoord 10 (-(5 : ℤ)) = 4 ∧
    (extract wimg10 ⟨-5, -5, 5, 5⟩ .mirror).pix 0 0 = ⟨255, 255, 255⟩ ∧
    (extract wimg10 ⟨-5, -5, 5, 5⟩ .replicate).pix 0 0 = ⟨255, 255, 255⟩ ∧
    (extract wimg10 ⟨-5, -5, 5, 5⟩ .zero).pix 0 0 = 0 := by
  refine ⟨border_policy_semantics.1 10 (-3) (by norm_num),
          border_policy_semantics.2.1 10 12 (by norm_num) (by norm_num),
          border_policy_semantics.2.2.2.2.1 10 5 (by norm_num) (by norm_num), ?_, ?_, ?_⟩
  · have := border_policy_semantics.2.2.2.2.2.1 Rgb wimg10 ⟨-5, -5, 5, 5⟩ 0 0 5 5
      (by norm_num) (by norm_num [wimg10]) (by norm_num) (by norm_num [wimg10])
      (by norm_num) (by norm_num)
    simpa [wimg10] using this
  · have := border_policy_semantics.2.2.2.2.2.2.1 Rgb wimg10 ⟨-5, -5, 5, 5⟩ 0 0
      (by norm_num) (by norm_num)
    simpa [wimg10] using this
  · exact border_policy_semantics.2.2.2.2.2.2.2.1 Rgb wimg10 ⟨-5, -5, 5, 5⟩ 0 0
      (by norm_num [wimg10])

/-! ### Colormap engine

Modelled from the spec (§4.7): scalar values are normalized into the ramp
domain and linearly interpolated between bracketing stops.  The jet ramp's
stop table is the classic jet ramp, matching the spec's stated endpoints
(minimum ↦ dark blue `(0,0,128)`, maximum ↦ dark red `(128,0,0)`). -/

/-- A color with rational channels, used during interpolation. -/
abbrev Colorq : Type := ℚ × ℚ × ℚ

/-- The jet ramp's fixed, precomputed stop table. -/
def jetStops : List (ℚ × Colorq) :=
  [(0, (0, 0, 128)), (1/8, (0, 0, 255)), (3/8, (0, 255, 255)),
   (5/8, (255, 255, 0)), (7/8, (255, 0, 0)), (1, (128, 0, 0))]

/-- Linear interpolation of color components. -/
def lerpC (c0 c1 : Colorq) (u : ℚ) : Colorq :=
  (c0.1 + (c1.1 - c0.1) * u,
   c0.2.1 + (c1.2.1 - c0.2.1) * u,
   c0.2.2 + (c1.2.2 - c0.2.2) * u)

/-- Walk the stop list to the bracket containing `t` and interpolate. -/
def sampleStops : (ℚ × Colorq) → List (ℚ × Colorq) → ℚ → Colorq
  | (_, c0), [], _ => c0
  | (p0, c0), (p1, c1) :: rest, t =>
      if t ≤ p1 then lerpC c0 c1 ((t - p0) / (p1 - p0))
      else sampleStops (p1, c1) rest t

/-- Piecewise-linear ramp lookup at normalized position `t`. -/
def sampleRamp (stops : List (ℚ × Colorq)) (t : ℚ) : Colorq :=
  match stops with
  | [] => (0, 0, 0)
  | s0 :: rest => sampleStops s0 rest t

/-- Round interpolated rational channels to integer pixel channels. -/
def roundC (c : Colorq) : Rgb :=
  ⟨(rnd c.1).toNat, (rnd c.2.1).toNat, (rnd c.2.2).toNat⟩

/-- Row-major list of every pixel value: the full scan of the image. -/
def imgVals (img : Image ℚ) : List ℚ :=
  (List.range (img.rows * img.cols)).map fun k =>
    img.pix (k / img.cols) (k % img.cols)

/-- Full minimum over all pixels (the first pixel seeds the fold). -/
def imgMin (img : Image ℚ) : ℚ := (imgVals img).foldl min (img.pix 0 0)

/-- Full maximum over all pixels (the first pixel seeds the fold). -/
def imgMax (img : Image ℚ) : ℚ := (imgVals img).foldl max (img.pix 0 0)

/-- A colormap: a ramp's stop table plus an optional explicit domain. -/
structure ColormapSpec where
  stops : List (ℚ × Colorq)
  lo : Option ℚ
  hi : Option ℚ

/-- Resolve the domain minimum: explicit bound or full scan. -/
def resolveMin (spec : ColormapSpec) (img : Image ℚ) : ℚ :=
  spec.lo.getD (imgMin img)

/-- Resolve the domain maximum: explicit bound or full scan. -/
def resolveMax (spec : ColormapSpec) (img : Image ℚ) : ℚ :=
  spec.hi.getD (imgMax img)

/-- Clamp a normalized position into [0, 1]. -/
def clamp01 (t : ℚ) : ℚ := min 1 (max 0 t)

/-- Normalized position of `v` in `[lo, hi]`; a degenerate domain
(`hi = lo`) maps every value to the ramp midpoint instead of dividing. -/
def normPos (lo hi v : ℚ) : ℚ :=
  if hi = lo then 1 / 2 else clamp01 ((v - lo) / (hi - lo))

/-- Apply a colormap to a scalar image (spec §4.7). -/
def applyColormap (spec : ColormapSpec) (img : Image ℚ) : Image Rgb where
  rows := img.rows
  cols := img.cols
  pix := fun i j =>
    roundC (sampleRamp spec.stops
      (normPos (resolveMin spec img) (resolveMax spec img) (img.pix i j)))

theorem foldl_min_le_seed : ∀ (l : List ℚ) (seed : ℚ), l.foldl min seed ≤ seed := by
  intro l
  induction l with
  | nil => intro seed; exact le_refl _
  | cons b l ih =>
      intro seed
      calc (b :: l).foldl min seed = l.foldl min (min seed b) := rfl
        _ ≤ min seed b := ih _
        _ ≤ seed := min_le_left _ _

theorem foldl_min_le_mem : ∀ (l : List ℚ) (seed a : ℚ), a ∈ l → l.foldl min seed ≤ a := by
  intro l
  induction l with
  | nil => intro seed a ha; exact absurd ha (List.not_mem_nil a)
  | cons b l ih =>
      intro seed a ha
      rcases List.mem_cons.mp ha with hab | hal
      · calc (b :: l).foldl min seed = l.foldl min (min seed b) := rfl
          _ ≤ min seed b := foldl_min_le_seed l _
          _ ≤ b := min_le_right _ _
          _ = a := hab.symm
      · exact ih (min seed b) a hal

theorem foldl_max_seed_le : ∀ (l : List ℚ) (seed : ℚ), seed ≤ l.foldl max seed := by
  intro l
  induction l with
  | nil => intro seed; exact le_refl _
  | cons b l ih =>
      intro seed
      calc seed ≤ max seed b := le_max_left _ _
        _ ≤ l.foldl max (max seed b) := ih _
        _ = (b :: l).foldl max seed := rfl

theorem foldl_max_mem_le : ∀ (l : List ℚ) (seed a : ℚ), a ∈ l → a ≤ l.foldl max seed := by
  intro l
  induction l with
  | nil => intro seed a ha; exact absurd ha (List.not_mem_nil a)
  | cons b l ih =>
      intro seed a ha
      rcases List.mem_cons.mp ha with hab | hal
      · calc a = b := hab
          _ ≤ max seed b := le_max_right _ _
          _ ≤ l.foldl max (max seed b) := foldl_max_seed_le l _
          _ = (b :: l).foldl max seed := rfl
      · exact ih (max seed b) a hal

theorem pix_mem_imgVals (img : Image ℚ) (i j : ℕ) (hi : i < img.rows)
    (hj : j < img.cols) : img.pix i j ∈ imgVals img := by
  unfold imgVals
  refine List.mem_map.mpr ⟨j + img.cols * i, List.mem_range.mpr ?_, ?_⟩
  · calc j + img.cols * i < img.cols + img.cols * i := by omega
      _ = img.cols * (i + 1) := by ring
      _ ≤ img.cols * img.rows := Nat.mul_le_mul_left _ (by omega)
      _ = img.rows * img.cols := Nat.mul_comm _ _
  · have hdiv : (j + img.cols * i) / img.cols = i := by
      rw [Nat.add_mul_div_left _ _ (by omega : 0 < img.cols),
        Nat.div_eq_of_lt hj, zero_add]
    have hmod : (j + img.cols * i) % img.cols = j := by
      rw [Nat.add_mul_mod_self_left, Nat.mod_eq_of_lt hj]
    rw [hdiv, hmod]

/-- Grayscale gradient image 0..255 in one row (the conformance input). -/
def gradImg : Image ℚ := ⟨1, 256, fun _ j => (j : ℚ)⟩

/-- C7: applying the jet colormap with explicit domain [0, 255] to the
0..255 gradient yields an image of the same dimensions mapping value 0 to
dark blue (0, 0, 128), value 255 to dark red (128, 0, 0), and value 128
to a color whose green channel exceeds 200. -/
theorem apply_colormap_jet_gradient :
    (applyColormap ⟨jetStops, some 0, some 255⟩ gradImg).rows = gradImg.rows ∧
    (applyColormap ⟨jetStops, some 0, some 255⟩ gradImg).cols = gradImg.cols ∧
    (applyColormap ⟨jetStops, some 0, some 255⟩ gradImg).pix 0 0 = ⟨0, 0, 128⟩ ∧
    (applyColormap ⟨jetStops, some 0, some 255⟩ gradImg).pix 0 255 = ⟨128, 0, 0⟩ ∧
    200 < ((applyColormap ⟨jetStops, some 0, some 255⟩ gradImg).pix 0 128).g := by
  refine ⟨rfl, rfl, ?_, ?_, ?_⟩ <;>
    (norm_num [applyColormap, gradImg, resolveMin, resolveMax, normPos, clamp01,
      sampleRamp, sampleStops, lerpC, jetStops, roundC, rnd, min_def, max_def,
      Rgb.mk.injEq] <;> rfl)

/-- C8: with an omitted domain bound, `apply_colormap` resolves it by a
full scan (every pixel is bounded by the computed min/max), and a pixel
holding the image minimum maps to the ramp's minimum-end color (dark blue,
blue-dominant) while one holding the maximum maps to the maximum-end color
(dark red, red-dominant). -/
theorem apply_colormap_auto_range :
    (∀ (img : Image ℚ) (i j : ℕ), i < img.rows → j < img.cols →
      imgMin img ≤ img.pix i j ∧ img.pix i j ≤ imgMax img) ∧
    (∀ (img : Image ℚ) (i j : ℕ), i < img.rows → j < img.cols →
      imgMin img < imgMax img →
      (img.pix i j = imgMin img →
        (applyColormap ⟨jetStops, none, none⟩ img).pix i j = ⟨0, 0, 128⟩ ∧
        100 < ((applyColormap ⟨jetStops, none, none⟩ img).pix i j).b) ∧
      (img.pix i j = imgMax img →
        (applyColormap ⟨jetStops, none, none⟩ img).pix i j = ⟨128, 0, 0⟩ ∧
        100 < ((applyColormap ⟨jetStops, none, none⟩ img).pix i j).r)) := by
  constructor
  · intro img i j hi hj
    exact ⟨foldl_min_le_mem _ _ _ (pix_mem_imgVals img i j hi hj),
           foldl_max_mem_le _ _ _ (pix_mem_imgVals img i j hi hj)⟩
  · intro img i j hi hj hlt
    have hne : imgMax img ≠ imgMin img := ne_of_gt hlt
    constructor
    · intro hv
      have hpix : (applyColormap ⟨jetStops, none, none⟩ img).pix i j = ⟨0, 0, 128⟩ := by
        show roundC (sampleRamp jetStops
          (normPos (imgMin img) (imgMax img) (img.pix i j))) = _
        rw [hv, show normPos (imgMin img) (imgMax img) (imgMin img) = 0 from by
          unfold normPos
          rw [if_neg hne, sub_self, zero_div]
          norm_num [clamp01]]
        norm_num [sampleRamp, sampleStops, lerpC, jetStops, roundC, rnd,
          Rgb.mk.injEq] <;> rfl
      exact ⟨hpix, by rw [hpix]; norm_num⟩
    · intro hv
      have hpix : (applyColormap ⟨jetStops, none, none⟩ img).pix i j = ⟨128, 0, 0⟩ := by
        show roundC (sampleRamp jetStops
          (normPos (imgMin img) (imgMax img) (img.pix i j))) = _
        rw [hv, show normPos (imgMin img) (imgMax img) (imgMax img) = 1 from by
          unfold normPos
          rw [if_neg hne, div_self (sub_ne_zero.mpr hne)]
          norm_num [clamp01]]
        norm_num [sampleRamp, sampleStops, lerpC, jetStops, roundC, rnd,
          Rgb.mk.injEq] <;> rfl
      exact ⟨hpix, by rw [hpix]; norm_num⟩

/-- Two-pixel image with values 10 and 20, the auto-range test input. -/
def img2 : Image ℚ := ⟨1, 2, fun _ j => 10 + 10 * (j : ℚ)⟩

theorem img2_min : imgMin img2 = 10 := by
  norm_num [imgMin, imgVals, img2, List.range_succ, min_def]

theorem img2_max : imgMax img2 = 20 := by
  norm_num [imgMax, imgVals, img2, List.range_succ, max_def]

/-- Witness for C8 on the 1×2 image spanning [10, 20]. -/
theorem apply_colormap_auto_range_w :
    (imgMin img2 ≤ img2.pix 0 0 ∧ img2.pix 0 0 ≤ imgMax img2) ∧
    ((applyColormap ⟨jetStops, none, none⟩ img2).pix 0 0 = ⟨0, 0, 128⟩ ∧
      100 < ((applyColormap ⟨jetStops, none, none⟩ img2).pix 0 0).b) ∧
    ((applyColormap ⟨jetStops, none, none⟩ img2).pix 0 1 = ⟨128, 0, 0⟩ ∧
      100 < ((applyColormap ⟨jetStops, none, none⟩ img2).pix 0 1).r) :=
  ⟨apply_colormap_auto_range.1 img2 0 0 (by norm_num [img2]) (by norm_num [img2]),
   (apply_colormap_auto_range.2 img2 0 0 (by norm_num [img2]) (by norm_num [img2])
      (by rw [img2_min, img2_max]; norm_num)).1
      (by rw [img2_min]; norm_num [img2]),
   (apply_colormap_auto_range.2 img2 0 1 (by norm_num [img2]) (by norm_num [img2])
      (by rw [img2_min, img2_max]; norm_num)).2
      (by rw [img2_max]; norm_num [img2])⟩

/-- C9: when the resolved colormap domain is degenerate (min = max), every
pixel's normalized position is defined as the ramp midpoint 1/2 — the
division `(v - min)/(max - min)` is never taken — and the operation still
produces a full color image of the input's dimensions. -/
theorem apply_colormap_degenerate :
    ∀ (spec : ColormapSpec) (img : Image ℚ),
      resolveMin spec img = resolveMax spec img →
      (applyColormap spec img).rows = img.rows ∧
      (applyColormap spec img).cols = img.cols ∧
      ∀ i j : ℕ, (applyColormap spec img).pix i j
        = roundC (sampleRamp spec.stops (1 / 2)) := by
  intro spec img heq
  refine ⟨rfl, rfl, fun i j => ?_⟩
  show roundC (sampleRamp spec.stops
    (normPos (resolveMin spec img) (resolveMax spec img) (img.pix i j))) = _
  rw [show normPos (resolveMin spec img) (resolveMax spec img) (img.pix i j) = 1 / 2
    from by unfold normPos; rw [if_pos heq.symm]]

/-- Witness for C9: an explicitly degenerate domain [3, 3] on a constant
image still yields a full color image, every pixel at the jet midpoint. -/
theorem apply_colormap_degenerate_w :
    (applyColormap ⟨jetStops, some 3, some 3⟩ ⟨1, 1, fun _ _ => 7⟩).rows = 1 ∧
    (applyColormap ⟨jetStops, some 3, some 3⟩ ⟨1, 1, fun _ _ => 7⟩).cols = 1 ∧
    (applyColormap ⟨jetStops, some 3, some 3⟩ ⟨1, 1, fun _ _ => 7⟩).pix 0 0
      = roundC (sampleRamp jetStops (1 / 2)) :=
  ⟨(apply_colormap_degenerate ⟨jetStops, some 3, some 3⟩ ⟨1, 1, fun _ _ => 7⟩ rfl).1,
   (apply_colormap_degenerate ⟨jetStops, some 3, some 3⟩ ⟨1, 1, fun _ _ => 7⟩ rfl).2.1,
   (apply_colormap_degenerate ⟨jetStops, some 3, some 3⟩ ⟨1, 1, fun _ _ => 7⟩ rfl).2.2 0 0⟩

end Zignal
